import Mathlib

set_option maxRecDepth 8000

/-!
Verification of the Open Interpreter shell-integration installer
(`scripts/setup.py`).

Strings are modelled as `List Char`; the file system as a partial map from
paths to contents; the installer `main` as a generator of a trace of
input/output events, whose effect on the file system is given by `applyTrace`.
-/

abbrev Str := List Char

abbrev FS := Str → Option Str

/-- Boolean test: is `p` a leading segment of `s`. -/
def isPre : Str → Str → Bool
  | [], _ => true
  | _ :: _, [] => false
  | a :: p, b :: s => a == b && isPre p s

/-- Boolean test: does `p` occur as a contiguous substring of `s`
(the embedding of Python's `in` on strings). -/
def hasSub (p : Str) : Str → Bool
  | [] => p.isEmpty
  | c :: t => isPre p (c :: t) || hasSub p t

/-- Number of positions of `s` at which `p` occurs (overlaps counted). -/
def countOccs (p : Str) : Str → Nat
  | [] => if p.isEmpty then 1 else 0
  | c :: t => (if isPre p (c :: t) then 1 else 0) + countOccs p t

/-- Scan `s` for the first occurrence of `e`; drop everything up to and
including that occurrence, returning the remainder (the lazy `.*?e` scan). -/
def dropUpToEnd (e : Str) : Str → Option Str
  | [] => if e.isEmpty then some [] else none
  | c :: t => if isPre e (c :: t) then some (List.drop e.length (c :: t)) else dropUpToEnd e t

/-- At the current position, either match `S` followed lazily by `E`
(returning the remainder after the matched span) or fail. -/
def stepMatch (S E : Str) (s : Str) : Option Str :=
  if isPre S s = true ∧ S ≠ [] then dropUpToEnd E (List.drop S.length s) else none

theorem isPre_length_le : ∀ p s : Str, isPre p s = true → p.length ≤ s.length := by
  intro p
  induction p with
  | nil => intro s _; simp
  | cons a p ih =>
    intro s h
    cases s with
    | nil => simp [isPre] at h
    | cons b t =>
      simp only [isPre, Bool.and_eq_true] at h
      have := ih t h.2
      simp only [List.length_cons]
      omega

theorem dropUpToEnd_length_le (e : Str) :
    ∀ s r : Str, dropUpToEnd e s = some r → r.length ≤ s.length := by
  intro s
  induction s with
  | nil =>
    intro r h
    simp only [dropUpToEnd] at h
    split at h
    · simp_all
    · exact absurd h (by simp)
  | cons c t ih =>
    intro r h
    simp only [dropUpToEnd] at h
    split at h
    · have : r = List.drop e.length (c :: t) := by simp_all
      subst this
      simp [List.length_drop]
    · have := ih r h
      simp only [List.length_cons]
      omega

theorem stepMatch_some_lt {S E s r : Str} (h : stepMatch S E s = some r) :
    r.length < s.length := by
  unfold stepMatch at h
  split at h
  · rename_i hc
    have h1 := dropUpToEnd_length_le E _ _ h
    have h2 : S.length ≤ s.length := isPre_length_le S s hc.1
    have h3 : 1 ≤ S.length := by
      cases S with
      | nil => exact absurd rfl hc.2
      | cons a p => simp
    simp only [List.length_drop] at h1
    omega
  · exact absurd h (by simp)

/-- Embedding of the re.sub call that erases marker-delimited spans: the
pattern is the start marker, a lazy dot-star, and the end marker, replaced by
the empty string under DOTALL. Scan left to right; at each position, if the
start marker matches and an end marker occurs after it, delete through the
first such end marker and continue after the deleted span; otherwise keep the
character and move on. -/
def removeBlocks (S E : Str) : Str → Str
  | [] => []
  | c :: t =>
    match h : stepMatch S E (c :: t) with
    | some rest => removeBlocks S E rest
    | none => c :: removeBlocks S E t
termination_by s => s.length
decreasing_by
  · exact stepMatch_some_lt h
  · simp

/-- Characters stripped by Python's `str.rstrip()` (ASCII whitespace). -/
def isSpaceChar (c : Char) : Bool :=
  c == ' ' || c == '\t' || c == '\n' || c == '\r' || c == '\x0b' || c == '\x0c'

/-- Embedding of `str.rstrip()`. -/
def rstrip (s : Str) : Str := (s.reverse.dropWhile isSpaceChar).reverse

/-- Embedding of `str.lower()` (ASCII letters). -/
def toLowerStr (s : Str) : Str := s.map Char.toLower

/- Literal constants of the source. -/

def start_marker : Str := "### <openinterpreter> ###".data

def end_marker : Str := "### </openinterpreter> ###".data

def zshName : Str := "zsh".data

def bashName : Str := "bash".data

def zshrcFile : Str := "/.zshrc".data

def bashrcFile : Str := "/.bashrc".data

def bashProfileFile : Str := "/.bash_profile".data

def historyFile : Str := "/.shell_history_with_output".data

def noneText : Str := "None".data

/-- The dialect-independent part of the hook script (`base_script`). -/
def base_script : Str :=
  "# Create log file if it doesn\x27t exist\ntouch ~/.shell_history_with_output\n\n# Function to capture terminal interaction\nfunction capture_output() \x7b\n    local cmd=$1\n    echo \"user: $cmd\" >> ~/.shell_history_with_output\n    echo \"computer:\" >> ~/.shell_history_with_output\n    eval \"$cmd\" >> ~/.shell_history_with_output 2>&1\n\x7d\n\n# Command not found handler that pipes context to interpreter\ncommand_not_found_handler() \x7b\n    cat ~/.shell_history_with_output | interpreter\n    return 0\n\x7d\n\n# Hook into preexec".data

/-- The zsh-specific tail appended to `base_script`. -/
def zshTail : Str :=
  "\npreexec() \x7b\n    capture_output \"$1\"\n\x7d\n".data

/-- The bash-specific tail appended to `base_script`. -/
def bashTail : Str :=
  "\ntrap \x27capture_output \"$(HISTTIMEFORMAT= history 1 | sed \"s/^[ ]*[0-9]*[ ]*//\")\" \x27 DEBUG\n".data

def startingMsg : Str := "Starting installation...".data

def failMsg : Str := "Could not determine your shell configuration.".data

def manualMsg : Str :=
  "Please visit docs.openinterpreter.com/shell for manual installation instructions.".data

def promptMsg : Str :=
  "Open Interpreter shell integration appears to be already installed. Would you like to reinstall? (y/n): ".data

def cancelMsg : Str := "Installation cancelled.".data

def successPre : Str := "Successfully installed Open Interpreter shell integration to ".data

def restartMsg : Str :=
  "Please restart your shell or run \x27source ~/.zshrc\x27 to apply changes.".data

def errorPre : Str := "Error writing to ".data

def colonSep : Str := ": ".data

def yText : Str := "y".data

/-- Environment of the run: the `SHELL` variable (absent or a value) and the
home directory string returned by `Path.home()` / `expanduser`. -/
structure Env where
  shell : Option Str
  home : Str

/-- Embedding of `get_shell_config`: inspect `SHELL` (lowercased) and the
file system to pick the startup file path and the shell type. -/
def get_shell_config (e : Env) (fs : FS) : Option (Str × Str) :=
  let shell := toLowerStr (e.shell.getD [])
  if hasSub zshName shell then some (e.home ++ zshrcFile, zshName)
  else if hasSub bashName shell then
    if (fs (e.home ++ bashrcFile)).isSome then some (e.home ++ bashrcFile, bashName)
    else if (fs (e.home ++ bashProfileFile)).isSome then
      some (e.home ++ bashProfileFile, bashName)
    else none
  else none

/-- Embedding of `get_shell_script`: the dialect-specific hook body, or
`none` for an unsupported type. -/
def get_shell_script (shell_type : Str) : Option Str :=
  if shell_type = zshName then some (base_script ++ zshTail)
  else if shell_type = bashName then some (base_script ++ bashTail)
  else none

/-- The new startup-file content assembled by the installer: the rstripped
prior content, a blank line, then the start-marker line, the script body, and
the end-marker line, each terminated by a newline. -/
def buildContent (script content : Str) : Str :=
  rstrip content ++
    '\n' :: '\n' :: (start_marker ++ '\n' :: (script ++ '\n' :: (end_marker ++ ['\n'])))

/-- Input/output events performed by the installer. -/
inductive Ev where
  | print (msg : Str)
  | prompt (msg : Str)
  | removeFile (path : Str)
  | createFile (path : Str) (content : Str)
  | readFile (path : Str)
  | writeFile (path : Str) (content : Str)
deriving DecidableEq

/-- Effect of one event on the file system. -/
def applyEv (fs : FS) : Ev → FS
  | Ev.removeFile p => fun q => if q = p then none else fs q
  | Ev.createFile p c => fun q => if q = p then some c else fs q
  | Ev.writeFile p c => fun q => if q = p then some c else fs q
  | _ => fs

/-- Effect of a trace of events on the file system. -/
def applyTrace (fs : FS) (evs : List Ev) : FS := evs.foldl applyEv fs

/-- Events of the final write step of `main`: on success one whole-content
write and two reports; on failure an error report naming the path and the
cause, and the manual-instructions pointer. -/
def installTail (p t : Str) (wOk : Bool) (err : Str) (content : Str) : List Ev :=
  let script := (get_shell_script t).getD noneText
  if wOk then
    [Ev.writeFile p (buildContent script content),
     Ev.print (successPre ++ p), Ev.print restartMsg]
  else
    [Ev.print (errorPre ++ p ++ colonSep ++ err), Ev.print manualMsg]

/-- Events of `main` after the startup file has been read: the reinstall
prompt and block removal when the start marker is present, then the write. -/
def afterRead (p t : Str) (resp : Str) (wOk : Bool) (err : Str) (content : Str) : List Ev :=
  if hasSub start_marker content then
    Ev.prompt promptMsg ::
      (if toLowerStr resp = yText then
        installTail p t wOk err (removeBlocks start_marker end_marker content)
      else [Ev.print cancelMsg])
  else installTail p t wOk err content

/-- Embedding of `main` as the trace of events it performs, given the
environment, the initial file system, the reply to the reinstall prompt,
whether the final write succeeds, and the text of the write error. -/
def mainTrace (e : Env) (fs : FS) (resp : Str) (wOk : Bool) (err : Str) : List Ev :=
  Ev.print startingMsg ::
    match get_shell_config e fs with
    | none => [Ev.print failMsg, Ev.print manualMsg]
    | some (p, t) =>
      (if (fs (e.home ++ historyFile)).isSome then [Ev.removeFile (e.home ++ historyFile)]
       else []) ++
        Ev.createFile (e.home ++ historyFile) [] :: Ev.readFile p ::
          afterRead p t resp wOk err ((fs p).getD [])

/-! ### Basic lemmas about prefixes and substrings -/

theorem isPre_self_append : ∀ u r : Str, isPre u (u ++ r) = true := by
  intro u r
  induction u with
  | nil => simp [isPre]
  | cons a p ih => simp [isPre, ih]

theorem isPre_of_isPre_le :
    ∀ p q s : Str, isPre p s = true → isPre q s = true → p.length ≤ q.length →
      isPre p q = true := by
  intro p
  induction p with
  | nil => intro q s _ _ _; simp [isPre]
  | cons a p ih =>
    intro q s hp hq hlen
    cases q with
    | nil => simp at hlen
    | cons b q =>
      cases s with
      | nil => simp [isPre] at hp
      | cons c s =>
        simp only [isPre, Bool.and_eq_true, beq_iff_eq] at hp hq ⊢
        refine ⟨hp.1.trans hq.1.symm, ?_⟩
        exact ih q s hp.2 hq.2 (by simpa using hlen)

theorem hasSub_of_isPre {p s : Str} (h : isPre p s = true) : hasSub p s = true := by
  cases s with
  | nil =>
    cases p with
    | nil => simp [hasSub]
    | cons a t => simp [isPre] at h
  | cons c t => simp [hasSub, h]

theorem hasSub_cons_decomp {p : Str} {c : Char} {t : Str}
    (h : hasSub p (c :: t) = false) : isPre p (c :: t) = false ∧ hasSub p t = false := by
  simp only [hasSub, Bool.or_eq_false_iff] at h
  exact h

theorem isPre_append_ext {p x : Str} (t : Str) (h : isPre p x = true) :
    isPre p (x ++ t) = true := by
  induction p generalizing x with
  | nil => simp [isPre]
  | cons a p ih =>
    cases x with
    | nil => simp [isPre] at h
    | cons b x =>
      simp only [isPre, Bool.and_eq_true] at h ⊢
      exact ⟨h.1, ih h.2⟩

theorem hasSub_append_right {p x : Str} (t : Str) (h : hasSub p x = true) :
    hasSub p (x ++ t) = true := by
  induction x with
  | nil =>
    cases p with
    | nil => exact hasSub_of_isPre (by simp [isPre])
    | cons a q => simp [hasSub] at h
  | cons c x ih =>
    simp only [hasSub, Bool.or_eq_true] at h
    rcases h with h | h
    · exact hasSub_of_isPre (isPre_append_ext t h)
    · simp only [List.cons_append, hasSub, Bool.or_eq_true]
      exact Or.inr (ih h)

theorem hasSub_append_left {p : Str} (x : Str) {t : Str} (h : hasSub p t = true) :
    hasSub p (x ++ t) = true := by
  induction x with
  | nil => simpa using h
  | cons c x ih =>
    simp only [List.cons_append, hasSub, Bool.or_eq_true]
    exact Or.inr ih

theorem hasSub_nil_of_ne {p : Str} (h : p ≠ []) : hasSub p [] = false := by
  cases p with
  | nil => exact absurd rfl h
  | cons a q => simp [hasSub]

/-! ### Counting occurrences -/

theorem countOccs_nil_of_ne {p : Str} (h : p ≠ []) : countOccs p [] = 0 := by
  cases p with
  | nil => exact absurd rfl h
  | cons a q => simp [countOccs]

theorem countOccs_eq_zero {p s : Str} (h : hasSub p s = false) : countOccs p s = 0 := by
  induction s with
  | nil =>
    cases p with
    | nil => simp [hasSub] at h
    | cons a q => simp [countOccs]
  | cons c t ih =>
    obtain ⟨h1, h2⟩ := hasSub_cons_decomp h
    simp [countOccs, h1, ih h2]

theorem isPre_append_mid {p : Str} {ch : Char} (x y : Str) (h : ch ∉ p) :
    isPre p (x ++ ch :: y) = isPre p x := by
  induction x generalizing p with
  | nil =>
    cases p with
    | nil => simp [isPre]
    | cons a q =>
      simp only [List.nil_append, isPre]
      have : (a == ch) = false := by
        simp only [beq_eq_false_iff_ne, ne_eq]
        intro hh; exact h (by simp [hh])
      simp [this]
  | cons b x ih =>
    cases p with
    | nil => simp [isPre]
    | cons a q =>
      simp only [List.cons_append, isPre]
      have hq : ch ∉ q := fun hq => h (by simp [hq])
      rw [show x.append (ch :: y) = x ++ ch :: y from rfl, ih hq]

theorem countOccs_append_mid {p : Str} {ch : Char} (x y : Str)
    (hne : p ≠ []) (h : ch ∉ p) :
    countOccs p (x ++ ch :: y) = countOccs p x + countOccs p y := by
  induction x with
  | nil =>
    have h0 : isPre p ([] : Str) = false := by
      cases p with
      | nil => exact absurd rfl hne
      | cons a q => rfl
    have h1 : isPre p (ch :: y) = false := by
      have := isPre_append_mid ([] : Str) y h
      simpa [h0] using this
    simp [countOccs, h1, countOccs_nil_of_ne hne, hne]
  | cons c x ih =>
    have h1 : isPre p ((c :: x) ++ ch :: y) = isPre p (c :: x) :=
      isPre_append_mid (c :: x) y h
    simp only [List.cons_append] at h1 ⊢
    simp [countOccs, h1, ih, Nat.add_assoc]

theorem countOccs_cons_mid {p : Str} {ch : Char} (y : Str)
    (hne : p ≠ []) (h : ch ∉ p) :
    countOccs p (ch :: y) = countOccs p y := by
  have := countOccs_append_mid ([] : Str) y hne h
  simpa [countOccs_nil_of_ne hne] using this

/-! ### rstrip -/

theorem rstrip_spec (s : Str) :
    ∃ w, s = rstrip s ++ w ∧ ∀ c ∈ w, isSpaceChar c = true := by
  refine ⟨(s.reverse.takeWhile isSpaceChar).reverse, ?_, ?_⟩
  · have h := congrArg List.reverse (List.takeWhile_append_dropWhile isSpaceChar s.reverse)
    rw [List.reverse_append, List.reverse_reverse] at h
    exact h.symm
  · intro c hc
    rw [List.mem_reverse] at hc
    exact List.mem_takeWhile_imp hc

theorem hasSub_rstrip {p s : Str} (h : hasSub p s = false) :
    hasSub p (rstrip s) = false := by
  by_contra hc
  have hc' : hasSub p (rstrip s) = true := by
    cases hh : hasSub p (rstrip s)
    · exact absurd hh hc
    · rfl
  obtain ⟨w, hw, _⟩ := rstrip_spec s
  have := hasSub_append_right w hc'
  rw [← hw] at this
  rw [this] at h
  exact absurd h (by simp)

/-! ### Block removal: structural lemmas -/

theorem dropUpToEnd_of_isPre {e s : Str} (hne : e ≠ []) (h : isPre e s = true) :
    dropUpToEnd e s = some (List.drop e.length s) := by
  cases s with
  | nil =>
    cases e with
    | nil => exact absurd rfl hne
    | cons a q => simp [isPre] at h
  | cons c t => simp [dropUpToEnd, h]

theorem dropUpToEnd_exact {E m b : Str} {ed : Str} {cE : Char}
    (hE : E = ed ++ [cE]) (h : hasSub E (m ++ ed) = false) :
    dropUpToEnd E (m ++ (E ++ b)) = some b := by
  induction m with
  | nil =>
    have hne : E ≠ [] := by simp [hE]
    rw [List.nil_append, dropUpToEnd_of_isPre hne (isPre_self_append E b)]
    simp [List.drop_left]
  | cons c m ih =>
    have hstep : isPre E (c :: (m ++ (E ++ b))) = false := by
      by_contra hc
      have hc' : isPre E (c :: (m ++ (E ++ b))) = true := by
        cases hh : isPre E (c :: (m ++ (E ++ b)))
        · exact absurd hh hc
        · rfl
      have hshape : c :: (m ++ (E ++ b)) = ((c :: m) ++ ed) ++ (cE :: b) := by
        rw [hE]; simp
      have hlong : isPre ((c :: m) ++ ed) (c :: (m ++ (E ++ b))) = true := by
        rw [hshape]; exact isPre_self_append _ _
      have hlen : E.length ≤ ((c :: m) ++ ed).length := by
        rw [hE]; simp
      have := hasSub_of_isPre (isPre_of_isPre_le E _ _ hc' hlong hlen)
      rw [this] at h
      exact absurd h (by simp)
    have hm : hasSub E (m ++ ed) = false :=
      (hasSub_cons_decomp (by simpa using h)).2
    have hcons : dropUpToEnd E (c :: (m ++ (E ++ b))) = dropUpToEnd E (m ++ (E ++ b)) := by
      simp only [dropUpToEnd, hstep]
      simp
    simp only [List.cons_append]
    rw [hcons]
    exact ih hm

theorem removeBlocks_nil (S E : Str) : removeBlocks S E [] = [] := by
  simp [removeBlocks]

theorem removeBlocks_cons_some {S E r : Str} {c : Char} {t : Str}
    (h : stepMatch S E (c :: t) = some r) :
    removeBlocks S E (c :: t) = removeBlocks S E r := by
  rw [removeBlocks.eq_2]
  split
  · rename_i rest heq
    have hr : rest = r := by
      rw [heq] at h
      exact Option.some.inj h
    rw [hr]
  · rename_i heq
    rw [heq] at h
    exact absurd h (by simp)

theorem removeBlocks_cons_none {S E : Str} {c : Char} {t : Str}
    (h : stepMatch S E (c :: t) = none) :
    removeBlocks S E (c :: t) = c :: removeBlocks S E t := by
  rw [removeBlocks.eq_2]
  split
  · rename_i rest heq
    rw [heq] at h
    exact absurd h (by simp)
  · rfl

theorem stepMatch_of_not_isPre {S E s : Str} (h : isPre S s = false) :
    stepMatch S E s = none := by
  unfold stepMatch
  rw [if_neg]
  intro hc
  rw [hc.1] at h
  exact absurd h (by simp)

theorem stepMatch_pos {S E s : Str} (hne : S ≠ []) (h : isPre S s = true) :
    stepMatch S E s = dropUpToEnd E (List.drop S.length s) := by
  unfold stepMatch
  rw [if_pos ⟨h, hne⟩]

/-- Text without the start marker is left unchanged by block removal. -/
theorem removeBlocks_no_marker {S : Str} (E : Str) :
    ∀ s : Str, hasSub S s = false → removeBlocks S E s = s := by
  intro s
  induction s with
  | nil => intro _; exact removeBlocks_nil S E
  | cons c t ih =>
    intro h
    obtain ⟨h1, h2⟩ := hasSub_cons_decomp h
    rw [removeBlocks_cons_none (stepMatch_of_not_isPre h1), ih h2]

/-- Block removal deletes exactly the span from the first start-marker
occurrence through the first end-marker occurrence after it, then continues
on the remaining text. -/
theorem removeBlocks_span {S E a m r : Str} {sd ed : Str} {cS cE : Char}
    (hS : S = sd ++ [cS]) (hE : E = ed ++ [cE])
    (ha : hasSub S (a ++ sd) = false) (hm : hasSub E (m ++ ed) = false) :
    removeBlocks S E (a ++ (S ++ (m ++ (E ++ r)))) = a ++ removeBlocks S E r := by
  induction a with
  | nil =>
    have hne : S ≠ [] := by simp [hS]
    have hp : isPre S (S ++ (m ++ (E ++ r))) = true := isPre_self_append _ _
    have hdrop : List.drop S.length (S ++ (m ++ (E ++ r))) = m ++ (E ++ r) :=
      List.drop_left _ _
    have hstep : stepMatch S E (S ++ (m ++ (E ++ r))) = some r := by
      rw [stepMatch_pos hne hp, hdrop]
      exact dropUpToEnd_exact hE (by simpa using hm)
    obtain ⟨c, t, hct⟩ : ∃ c t, S ++ (m ++ (E ++ r)) = c :: t := by
      rw [hS]
      cases sd with
      | nil => exact ⟨cS, m ++ (E ++ r), by simp⟩
      | cons x xs => exact ⟨x, (xs ++ [cS]) ++ (m ++ (E ++ r)), by simp⟩
    have hstep' : stepMatch S E (c :: t) = some r := by
      rw [← hct]
      exact hstep
    rw [List.nil_append, hct, removeBlocks_cons_some hstep', List.nil_append]
  | cons c a ih =>
    have hstep : isPre S ((c :: a) ++ (S ++ (m ++ (E ++ r)))) = false := by
      by_contra hc
      have hc' : isPre S ((c :: a) ++ (S ++ (m ++ (E ++ r)))) = true := by
        cases hh : isPre S ((c :: a) ++ (S ++ (m ++ (E ++ r))))
        · exact absurd hh hc
        · rfl
      have hshape : (c :: a) ++ (S ++ (m ++ (E ++ r))) =
          ((c :: a) ++ sd) ++ (cS :: (m ++ (E ++ r))) := by
        rw [hS]; simp
      have hlong : isPre ((c :: a) ++ sd) ((c :: a) ++ (S ++ (m ++ (E ++ r)))) = true := by
        rw [hshape]; exact isPre_self_append _ _
      have hlen : S.length ≤ ((c :: a) ++ sd).length := by
        rw [hS]; simp
      have := hasSub_of_isPre (isPre_of_isPre_le S _ _ hc' hlong hlen)
      rw [this] at ha
      exact absurd ha (by simp)
    have ha' : hasSub S (a ++ sd) = false :=
      (hasSub_cons_decomp (by simpa using ha)).2
    simp only [List.cons_append]
    rw [removeBlocks_cons_none (stepMatch_of_not_isPre (by simpa using hstep))]
    rw [ih ha']

/-! ### File-system effect of traces -/

/-- Does this event mutate the file at path `q`? -/
def touches (q : Str) : Ev → Bool
  | Ev.removeFile p => decide (p = q)
  | Ev.createFile p _ => decide (p = q)
  | Ev.writeFile p _ => decide (p = q)
  | _ => false

theorem applyEv_not_touched {q : Str} {ev : Ev} (fs : FS) (h : touches q ev = false) :
    applyEv fs ev q = fs q := by
  cases ev <;> simp only [touches, decide_eq_false_iff_not] at h <;>
    simp [applyEv] <;> intro hq <;> exact absurd hq.symm h

theorem applyTrace_not_touched {q : Str} :
    ∀ (evs : List Ev) (fs : FS), (∀ ev ∈ evs, touches q ev = false) →
      applyTrace fs evs q = fs q := by
  intro evs
  induction evs with
  | nil => intro fs _; rfl
  | cons ev l ih =>
    intro fs h
    have h1 : touches q ev = false := h ev (by simp)
    have h2 : ∀ x ∈ l, touches q x = false := fun x hx => h x (by simp [hx])
    show applyTrace (applyEv fs ev) l q = fs q
    rw [ih (applyEv fs ev) h2, applyEv_not_touched fs h1]

theorem applyTrace_append (fs : FS) (l₁ l₂ : List Ev) :
    applyTrace fs (l₁ ++ l₂) = applyTrace (applyTrace fs l₁) l₂ :=
  List.foldl_append applyEv fs l₁ l₂

theorem applyTrace_write_last {q c : Str} (fs : FS) (l₁ l₂ : List Ev)
    (h : ∀ ev ∈ l₂, touches q ev = false) :
    applyTrace fs (l₁ ++ Ev.writeFile q c :: l₂) q = some c := by
  rw [show Ev.writeFile q c :: l₂ = [Ev.writeFile q c] ++ l₂ from rfl,
    ← List.append_assoc, applyTrace_append, applyTrace_not_touched l₂ _ h,
    applyTrace_append]
  show applyEv (applyTrace fs l₁) (Ev.writeFile q c) q = some c
  simp [applyEv]

theorem applyTrace_create_last {q c : Str} (fs : FS) (l₁ l₂ : List Ev)
    (h : ∀ ev ∈ l₂, touches q ev = false) :
    applyTrace fs (l₁ ++ Ev.createFile q c :: l₂) q = some c := by
  rw [show Ev.createFile q c :: l₂ = [Ev.createFile q c] ++ l₂ from rfl,
    ← List.append_assoc, applyTrace_append, applyTrace_not_touched l₂ _ h,
    applyTrace_append]
  show applyEv (applyTrace fs l₁) (Ev.createFile q c) q = some c
  simp [applyEv]

/-! ### Shape of the installer's trace -/

theorem config_path_cases {e : Env} {fs : FS} {p t : Str}
    (h : get_shell_config e fs = some (p, t)) :
    (p = e.home ++ zshrcFile ∧ t = zshName) ∨
      (p = e.home ++ bashrcFile ∧ t = bashName) ∨
      (p = e.home ++ bashProfileFile ∧ t = bashName) := by
  simp only [get_shell_config] at h
  split_ifs at h <;> simp only [Option.some.injEq, Prod.mk.injEq] at h <;> tauto

theorem shell_type_cases {e : Env} {fs : FS} {p t : Str}
    (h : get_shell_config e fs = some (p, t)) : t = zshName ∨ t = bashName := by
  rcases config_path_cases h with ⟨_, ht⟩ | ⟨_, ht⟩ | ⟨_, ht⟩
  · exact Or.inl ht
  · exact Or.inr ht
  · exact Or.inr ht

theorem config_ne_history {e : Env} {fs : FS} {p t : Str}
    (h : get_shell_config e fs = some (p, t)) : p ≠ e.home ++ historyFile := by
  intro hq
  rcases config_path_cases h with ⟨hp, _⟩ | ⟨hp, _⟩ | ⟨hp, _⟩ <;>
    rw [hp] at hq <;> have := List.append_cancel_left hq <;> revert this <;> decide

theorem mainTrace_some {e : Env} {fs : FS} {p t : Str}
    (resp : Str) (wOk : Bool) (err : Str)
    (h : get_shell_config e fs = some (p, t)) :
    mainTrace e fs resp wOk err =
      Ev.print startingMsg ::
        ((if (fs (e.home ++ historyFile)).isSome then
            [Ev.removeFile (e.home ++ historyFile)]
          else []) ++
          Ev.createFile (e.home ++ historyFile) [] :: Ev.readFile p ::
            afterRead p t resp wOk err ((fs p).getD [])) := by
  unfold mainTrace
  rw [h]

theorem mainTrace_none {e : Env} {fs : FS}
    (resp : Str) (wOk : Bool) (err : Str)
    (h : get_shell_config e fs = none) :
    mainTrace e fs resp wOk err =
      [Ev.print startingMsg, Ev.print failMsg, Ev.print manualMsg] := by
  unfold mainTrace
  rw [h]

theorem afterRead_touches {q p t resp err content : Str} {wOk : Bool} (hq : q ≠ p) :
    ∀ ev ∈ afterRead p t resp wOk err content, touches q ev = false := by
  intro ev hev
  have hq' : ¬(p = q) := fun hh => hq hh.symm
  unfold afterRead installTail at hev
  split_ifs at hev <;> fin_cases hev <;> simp [touches, hq']

theorem afterRead_no_write {q c p t resp err content : Str} {wOk : Bool} (hq : q ≠ p) :
    Ev.writeFile q c ∉ afterRead p t resp wOk err content := by
  intro hev
  have h2 := afterRead_touches hq _ hev
  simp [touches] at h2

/-! ### Branch shapes of the install flow -/

theorem installTail_true (p t err content : Str) :
    installTail p t true err content =
      [Ev.writeFile p (buildContent ((get_shell_script t).getD noneText) content),
       Ev.print (successPre ++ p), Ev.print restartMsg] := rfl

theorem installTail_false (p t err content : Str) :
    installTail p t false err content =
      [Ev.print (errorPre ++ p ++ colonSep ++ err), Ev.print manualMsg] := rfl

theorem afterRead_fresh {p t resp err content : Str} {wOk : Bool}
    (hm : hasSub start_marker content = false) :
    afterRead p t resp wOk err content = installTail p t wOk err content := by
  unfold afterRead
  rw [hm]
  simp

theorem afterRead_cancel {p t resp err content : Str} {wOk : Bool}
    (hm : hasSub start_marker content = true) (hr : toLowerStr resp ≠ yText) :
    afterRead p t resp wOk err content = [Ev.prompt promptMsg, Ev.print cancelMsg] := by
  unfold afterRead
  rw [hm, if_pos rfl, if_neg hr]

theorem afterRead_accept {p t resp err content : Str} {wOk : Bool}
    (hm : hasSub start_marker content = true) (hr : toLowerStr resp = yText) :
    afterRead p t resp wOk err content =
      Ev.prompt promptMsg ::
        installTail p t wOk err (removeBlocks start_marker end_marker content) := by
  unfold afterRead
  rw [hm, if_pos rfl, if_pos hr]

theorem afterRead_false_no_touch (q p t resp err content : Str) :
    ∀ ev ∈ afterRead p t resp false err content, touches q ev = false := by
  intro ev hev
  unfold afterRead installTail at hev
  split_ifs at hev <;> fin_cases hev <;> simp_all [touches]

theorem mainTrace_preserves {e : Env} {fs : FS} {resp err p t q : Str} {wOk : Bool}
    (h : get_shell_config e fs = some (p, t))
    (hq : q ≠ e.home ++ historyFile)
    (hw : ∀ ev ∈ afterRead p t resp wOk err ((fs p).getD []), touches q ev = false) :
    applyTrace fs (mainTrace e fs resp wOk err) q = fs q := by
  rw [mainTrace_some resp wOk err h]
  apply applyTrace_not_touched
  intro ev hev
  simp only [List.mem_cons, List.mem_append] at hev
  rcases hev with rfl | hev
  · rfl
  rcases hev with hev | hev
  · split at hev
    · simp only [List.mem_singleton] at hev
      subst hev
      simp only [touches, decide_eq_false_iff_not]
      exact fun hh => hq hh.symm
    · simp at hev
  rcases hev with rfl | hev
  · simp only [touches, decide_eq_false_iff_not]
    exact fun hh => hq hh.symm
  rcases hev with rfl | hev
  · rfl
  · exact hw ev hev

theorem mainTrace_false_no_touch_p {e : Env} {fs : FS} {resp err p t : Str}
    (h : get_shell_config e fs = some (p, t)) :
    ∀ ev ∈ mainTrace e fs resp false err, touches p ev = false := by
  intro ev hev
  rw [mainTrace_some resp false err h] at hev
  have hq : p ≠ e.home ++ historyFile := config_ne_history h
  simp only [List.mem_cons, List.mem_append] at hev
  rcases hev with rfl | hev
  · rfl
  rcases hev with hev | hev
  · split at hev
    · simp only [List.mem_singleton] at hev
      subst hev
      simp only [touches, decide_eq_false_iff_not]
      exact fun hh => hq hh.symm
    · simp at hev
  rcases hev with rfl | hev
  · simp only [touches, decide_eq_false_iff_not]
    exact fun hh => hq hh.symm
  rcases hev with rfl | hev
  · rfl
  · exact afterRead_false_no_touch p p t resp err _ ev hev

theorem hasSub_append_elim_right {p a b : Str} (h : hasSub p (a ++ b) = false) :
    hasSub p b = false := by
  cases hh : hasSub p b
  · rfl
  · rw [hasSub_append_left a hh] at h
    exact absurd h (by simp)

theorem hasSub_append_elim_left {p a b : Str} (h : hasSub p (a ++ b) = false) :
    hasSub p a = false := by
  cases hh : hasSub p a
  · rfl
  · rw [hasSub_append_right b hh] at h
    exact absurd h (by simp)

/-- The start marker with its final character removed. -/
def startHead : Str := "### <openinterpreter> ##".data

/-- The end marker with its final character removed. -/
def endHead : Str := "### </openinterpreter> ##".data

theorem start_marker_split : start_marker = startHead ++ ['#'] := by decide

theorem end_marker_split : end_marker = endHead ++ ['#'] := by decide

/-- Occurrences of a newline-free pattern in the assembled file are the sum
of its occurrences in the markers and the script body, provided it does not
occur in the surrounding content. -/
theorem countOccs_buildContent (p script content : Str) (hne : p ≠ [])
    (hnl : '\n' ∉ p) (hc : hasSub p content = false) :
    countOccs p (buildContent script content) =
      countOccs p start_marker + countOccs p script + countOccs p end_marker := by
  unfold buildContent
  rw [countOccs_append_mid (rstrip content)
      ('\n' :: (start_marker ++ '\n' :: (script ++ '\n' :: (end_marker ++ ['\n'])))) hne hnl,
    countOccs_cons_mid (start_marker ++ '\n' :: (script ++ '\n' :: (end_marker ++ ['\n'])))
      hne hnl,
    countOccs_append_mid start_marker (script ++ '\n' :: (end_marker ++ ['\n'])) hne hnl,
    countOccs_append_mid script (end_marker ++ ['\n']) hne hnl,
    countOccs_append_mid end_marker [] hne hnl,
    countOccs_eq_zero (hasSub_rstrip hc), countOccs_nil_of_ne hne]
  omega

/-! ### Claim theorems -/

/-- C3: shell detection satisfies the matrix: a `SHELL` value containing
"zsh" (case-insensitively) yields `~/.zshrc` with dialect zsh regardless of
the file system; otherwise a value containing "bash" yields `~/.bashrc` when
it exists, else `~/.bash_profile` when that exists, else detection fails;
any other value also fails, with no silent default. -/
theorem shell_detection_matrix (e : Env) (fs : FS) :
    (hasSub zshName (toLowerStr (e.shell.getD [])) = true →
      get_shell_config e fs = some (e.home ++ zshrcFile, zshName)) ∧
    (hasSub zshName (toLowerStr (e.shell.getD [])) = false →
      hasSub bashName (toLowerStr (e.shell.getD [])) = true →
      (fs (e.home ++ bashrcFile)).isSome = true →
      get_shell_config e fs = some (e.home ++ bashrcFile, bashName)) ∧
    (hasSub zshName (toLowerStr (e.shell.getD [])) = false →
      hasSub bashName (toLowerStr (e.shell.getD [])) = true →
      (fs (e.home ++ bashrcFile)).isSome = false →
      (fs (e.home ++ bashProfileFile)).isSome = true →
      get_shell_config e fs = some (e.home ++ bashProfileFile, bashName)) ∧
    (hasSub zshName (toLowerStr (e.shell.getD [])) = false →
      hasSub bashName (toLowerStr (e.shell.getD [])) = true →
      (fs (e.home ++ bashrcFile)).isSome = false →
      (fs (e.home ++ bashProfileFile)).isSome = false →
      get_shell_config e fs = none) ∧
    (hasSub zshName (toLowerStr (e.shell.getD [])) = false →
      hasSub bashName (toLowerStr (e.shell.getD [])) = false →
      get_shell_config e fs = none) := by
  refine ⟨?_, ?_, ?_, ?_, ?_⟩ <;> intro h1 <;>
    first
      | (intro h2 h3 h4; simp [get_shell_config, h1, h2, h3, h4])
      | (intro h2 h3; simp [get_shell_config, h1, h2, h3])
      | (intro h2; simp [get_shell_config, h1, h2])
      | simp [get_shell_config, h1]

theorem shell_detection_matrix_witness :
    get_shell_config ⟨some "/usr/bin/ZSH".data, "/h".data⟩ (fun _ => none) =
      some ("/h".data ++ zshrcFile, zshName) ∧
    get_shell_config ⟨some "fish".data, "/h".data⟩ (fun _ => none) = none ∧
    get_shell_config ⟨some "/bin/bash".data, "/h".data⟩
      (fun q => if q = "/h".data ++ bashProfileFile then some [] else none) =
      some ("/h".data ++ bashProfileFile, bashName) :=
  ⟨(shell_detection_matrix ⟨some "/usr/bin/ZSH".data, "/h".data⟩ (fun _ => none)).1
      (by decide),
   (shell_detection_matrix ⟨some "fish".data, "/h".data⟩ (fun _ => none)).2.2.2.2
      (by decide) (by decide),
   (shell_detection_matrix ⟨some "/bin/bash".data, "/h".data⟩
      (fun q => if q = "/h".data ++ bashProfileFile then some [] else none)).2.2.1
      (by decide) (by decide) (by decide) (by decide)⟩

/-- C5: if shell detection fails, the run prints the failure notice and the
guidance message carrying the manual-instructions link, and mutates no file:
the resulting file system is the initial one at every path. -/
theorem detection_failure_no_mutation (e : Env) (fs : FS) (resp err : Str) (wOk : Bool)
    (h : get_shell_config e fs = none) :
    mainTrace e fs resp wOk err =
      [Ev.print startingMsg, Ev.print failMsg, Ev.print manualMsg] ∧
    hasSub "docs.openinterpreter.com/shell".data manualMsg = true ∧
    ∀ q, applyTrace fs (mainTrace e fs resp wOk err) q = fs q := by
  refine ⟨mainTrace_none resp wOk err h, by decide, ?_⟩
  intro q
  rw [mainTrace_none resp wOk err h]
  apply applyTrace_not_touched
  intro ev hev
  fin_cases hev <;> rfl

theorem detection_failure_no_mutation_witness :
    mainTrace ⟨some "fish".data, "/h".data⟩ (fun _ => none) "y".data true [] =
      [Ev.print startingMsg, Ev.print failMsg, Ev.print manualMsg] :=
  (detection_failure_no_mutation ⟨some "fish".data, "/h".data⟩ (fun _ => none)
    "y".data [] true (by decide)).1

/-- C7: hook generation is deterministic; the zsh and bash outputs share the
identical common prefix `base_script` and differ only in their tails; the
zsh output ends with the `preexec` registration passing the command line as
`$1`, and the bash output ends with the DEBUG-trap registration that takes
the latest history entry and strips its leading sequence number. -/
theorem generate_dialect_scripts :
    get_shell_script zshName = some (base_script ++ zshTail) ∧
    get_shell_script bashName = some (base_script ++ bashTail) ∧
    List.take base_script.length (base_script ++ zshTail) =
      List.take base_script.length (base_script ++ bashTail) ∧
    List.drop base_script.length (base_script ++ zshTail) = zshTail ∧
    List.drop base_script.length (base_script ++ bashTail) = bashTail ∧
    zshTail ≠ bashTail ∧
    base_script ++ zshTail =
      base_script ++ "\npreexec() \x7b\n    capture_output \"$1\"\n\x7d\n".data ∧
    base_script ++ bashTail =
      base_script ++
        "\ntrap \x27capture_output \"$(HISTTIMEFORMAT= history 1 | sed \"s/^[ ]*[0-9]*[ ]*//\")\" \x27 DEBUG\n".data :=
  ⟨by decide, by decide, by rw [List.take_left, List.take_left],
   List.drop_left base_script zshTail, List.drop_left base_script bashTail,
   by decide, rfl, rfl⟩

/-- C9: whenever detection succeeds, the returned shell type is exactly
"zsh" or "bash", so `get_shell_script` cannot return `none` in the install
flow and the body interpolated into the block is never the text "None". -/
theorem detected_type_has_script (e : Env) (fs : FS) (p t : Str)
    (h : get_shell_config e fs = some (p, t)) :
    (t = zshName ∨ t = bashName) ∧
    get_shell_script t ≠ none ∧
    (get_shell_script t).getD noneText ≠ noneText := by
  refine ⟨shell_type_cases h, ?_, ?_⟩ <;>
    rcases shell_type_cases h with ht | ht <;> subst ht <;> decide

theorem detected_type_has_script_witness :
    (zshName = zshName ∨ zshName = bashName) ∧
    get_shell_script zshName ≠ none ∧
    (get_shell_script zshName).getD noneText ≠ noneText :=
  detected_type_has_script ⟨some "/bin/zsh".data, "/h".data⟩ (fun _ => none)
    ("/h".data ++ zshrcFile) zshName (by decide)

/-- C2: when the startup file contains the start marker and the reinstall
confirmation is declined, the run ends reporting cancellation, performs no
write to the startup file, and leaves its content byte-identical. -/
theorem cancel_preserves_config (e : Env) (fs : FS) (resp err : Str) (wOk : Bool)
    (p t : Str) (h : get_shell_config e fs = some (p, t))
    (hm : hasSub start_marker ((fs p).getD []) = true)
    (hr : toLowerStr resp ≠ yText) :
    (∃ l, mainTrace e fs resp wOk err = l ++ [Ev.print cancelMsg]) ∧
    (∀ c, Ev.writeFile p c ∉ mainTrace e fs resp wOk err) ∧
    applyTrace fs (mainTrace e fs resp wOk err) p = fs p := by
  have haf : afterRead p t resp wOk err ((fs p).getD []) =
      [Ev.prompt promptMsg, Ev.print cancelMsg] := afterRead_cancel hm hr
  refine ⟨⟨Ev.print startingMsg ::
      ((if (fs (e.home ++ historyFile)).isSome then
          [Ev.removeFile (e.home ++ historyFile)]
        else []) ++
        [Ev.createFile (e.home ++ historyFile) [], Ev.readFile p,
         Ev.prompt promptMsg]), ?_⟩, ?_, ?_⟩
  · rw [mainTrace_some resp wOk err h, haf]
    simp
  · intro c hc
    rw [mainTrace_some resp wOk err h, haf] at hc
    cases hH : (fs (e.home ++ historyFile)).isSome <;> rw [hH] at hc <;> simp at hc
  · apply mainTrace_preserves h (config_ne_history h)
    rw [haf]
    intro ev hev
    fin_cases hev <;> rfl

theorem cancel_preserves_config_witness :
    applyTrace
        (fun q => if q = "/h".data ++ zshrcFile then
            some ("x\n".data ++ start_marker ++ "\nb\n".data ++ end_marker) else none)
        (mainTrace ⟨some "/bin/zsh".data, "/h".data⟩
          (fun q => if q = "/h".data ++ zshrcFile then
              some ("x\n".data ++ start_marker ++ "\nb\n".data ++ end_marker) else none)
          "n".data true [])
        ("/h".data ++ zshrcFile) =
      (fun q => if q = "/h".data ++ zshrcFile then
          some ("x\n".data ++ start_marker ++ "\nb\n".data ++ end_marker) else none)
        ("/h".data ++ zshrcFile) :=
  (cancel_preserves_config ⟨some "/bin/zsh".data, "/h".data⟩
    (fun q => if q = "/h".data ++ zshrcFile then
        some ("x\n".data ++ start_marker ++ "\nb\n".data ++ end_marker) else none)
    "n".data [] true ("/h".data ++ zshrcFile) zshName
    (by decide) (by decide) (by decide)).2.2

/-- C4: once detection has succeeded, the transcript file afterwards exists
and is empty whatever its prior contents and whatever the outcome (including
reinstall-cancellation), and its reset event precedes every read or write of
the startup config file in the trace. -/
theorem transcript_reset_first (e : Env) (fs : FS) (resp err : Str) (wOk : Bool)
    (p t : Str) (h : get_shell_config e fs = some (p, t)) :
    applyTrace fs (mainTrace e fs resp wOk err) (e.home ++ historyFile) = some [] ∧
    ∃ l₁ l₂, mainTrace e fs resp wOk err =
        l₁ ++ Ev.createFile (e.home ++ historyFile) [] :: l₂ ∧
      (∀ q, Ev.readFile q ∉ l₁) ∧ (∀ q c, Ev.writeFile q c ∉ l₁) := by
  have hq : e.home ++ historyFile ≠ p := fun hh => config_ne_history h hh.symm
  constructor
  · rw [mainTrace_some resp wOk err h,
      show Ev.print startingMsg ::
          ((if (fs (e.home ++ historyFile)).isSome then
              [Ev.removeFile (e.home ++ historyFile)]
            else []) ++
            Ev.createFile (e.home ++ historyFile) [] :: Ev.readFile p ::
              afterRead p t resp wOk err ((fs p).getD [])) =
        (Ev.print startingMsg ::
          (if (fs (e.home ++ historyFile)).isSome then
              [Ev.removeFile (e.home ++ historyFile)]
            else [])) ++
          Ev.createFile (e.home ++ historyFile) [] :: Ev.readFile p ::
            afterRead p t resp wOk err ((fs p).getD []) from by simp]
    apply applyTrace_create_last
    intro ev hev
    rcases List.mem_cons.mp hev with rfl | hev
    · rfl
    · exact afterRead_touches hq ev hev
  · refine ⟨Ev.print startingMsg ::
      (if (fs (e.home ++ historyFile)).isSome then
          [Ev.removeFile (e.home ++ historyFile)]
        else []),
      Ev.readFile p :: afterRead p t resp wOk err ((fs p).getD []), ?_, ?_, ?_⟩
    · rw [mainTrace_some resp wOk err h]
      simp
    · intro q hq'
      rcases List.mem_cons.mp hq' with h' | h'
      · exact absurd h' (by simp)
      · split at h' <;> simp at h'
    · intro q c hq'
      rcases List.mem_cons.mp hq' with h' | h'
      · exact absurd h' (by simp)
      · split at h' <;> simp at h'

theorem transcript_reset_first_witness :
    applyTrace
        (fun q => if q = "/h".data ++ historyFile then some "old stuff".data else none)
        (mainTrace ⟨some "/bin/zsh".data, "/h".data⟩
          (fun q => if q = "/h".data ++ historyFile then some "old stuff".data else none)
          "n".data true [])
        ("/h".data ++ historyFile) = some [] :=
  (transcript_reset_first ⟨some "/bin/zsh".data, "/h".data⟩
    (fun q => if q = "/h".data ++ historyFile then some "old stuff".data else none)
    "n".data [] true ("/h".data ++ zshrcFile) zshName (by decide)).1

/-- C8: if the final write fails the installer performs no write event and
leaves the startup file unchanged, while reporting an error that names the
file's path and the cause followed by the manual-instructions pointer; and
any write event the installer ever performs carries the complete assembled
content (one whole-content write, never an incremental or partial one). -/
theorem write_failure_safe (e : Env) (fs : FS) (resp err : Str)
    (p t : Str) (h : get_shell_config e fs = some (p, t)) :
    (∀ c, Ev.writeFile p c ∉ mainTrace e fs resp false err) ∧
    applyTrace fs (mainTrace e fs resp false err) p = fs p ∧
    (hasSub start_marker ((fs p).getD []) = false →
      ∃ l, mainTrace e fs resp false err =
        l ++ [Ev.print (errorPre ++ p ++ colonSep ++ err), Ev.print manualMsg]) ∧
    (toLowerStr resp = yText →
      ∃ l, mainTrace e fs resp false err =
        l ++ [Ev.print (errorPre ++ p ++ colonSep ++ err), Ev.print manualMsg]) ∧
    (∀ (wOk : Bool) (c : Str), Ev.writeFile p c ∈ mainTrace e fs resp wOk err →
      ∃ content, c = buildContent ((get_shell_script t).getD noneText) content) := by
  refine ⟨?_, ?_, ?_, ?_, ?_⟩
  · intro c hc
    have h2 := mainTrace_false_no_touch_p h _ hc
    simp [touches] at h2
  · exact mainTrace_preserves h (config_ne_history h)
      (afterRead_false_no_touch p p t resp err _)
  · intro hm
    refine ⟨Ev.print startingMsg ::
      ((if (fs (e.home ++ historyFile)).isSome then
          [Ev.removeFile (e.home ++ historyFile)]
        else []) ++
        [Ev.createFile (e.home ++ historyFile) [], Ev.readFile p]), ?_⟩
    rw [mainTrace_some resp false err h, afterRead_fresh hm, installTail_false]
    simp
  · intro hr
    cases hm : hasSub start_marker ((fs p).getD [])
    · refine ⟨Ev.print startingMsg ::
        ((if (fs (e.home ++ historyFile)).isSome then
            [Ev.removeFile (e.home ++ historyFile)]
          else []) ++
          [Ev.createFile (e.home ++ historyFile) [], Ev.readFile p]), ?_⟩
      rw [mainTrace_some resp false err h, afterRead_fresh hm, installTail_false]
      simp
    · refine ⟨Ev.print startingMsg ::
        ((if (fs (e.home ++ historyFile)).isSome then
            [Ev.removeFile (e.home ++ historyFile)]
          else []) ++
          [Ev.createFile (e.home ++ historyFile) [], Ev.readFile p,
           Ev.prompt promptMsg]), ?_⟩
      rw [mainTrace_some resp false err h, afterRead_accept hm hr, installTail_false]
      simp
  · intro wOk c hc
    rw [mainTrace_some resp wOk err h] at hc
    cases hH : (fs (e.home ++ historyFile)).isSome <;> rw [hH] at hc <;>
      unfold afterRead installTail at hc <;>
      split_ifs at hc <;> simp at hc <;> exact ⟨_, hc⟩

theorem write_failure_safe_witness :
    applyTrace (fun _ => none)
        (mainTrace ⟨some "/bin/zsh".data, "/h".data⟩ (fun _ => none) "y".data false
          "disk full".data)
        ("/h".data ++ zshrcFile) = (fun _ => (none : Option Str)) ("/h".data ++ zshrcFile) :=
  (write_failure_safe ⟨some "/bin/zsh".data, "/h".data⟩ (fun _ => none) "y".data
    "disk full".data ("/h".data ++ zshrcFile) zshName (by decide)).2.1

/-- C6: with the start marker present and reinstall accepted, block removal
deletes exactly the span from the start marker through the first end marker
following it (inclusive, non-greedy) and keeps all surrounding content; the
accepted-reinstall flow then proceeds with exactly that remaining content. -/
theorem remove_block_exact_span (p t resp err : Str) (wOk : Bool) (a m b : Str)
    (hA : hasSub start_marker (a ++ startHead) = false)
    (hB : hasSub end_marker (m ++ endHead) = false)
    (hb : hasSub start_marker b = false)
    (hacc : toLowerStr resp = yText) :
    removeBlocks start_marker end_marker
        (a ++ (start_marker ++ (m ++ (end_marker ++ b)))) = a ++ b ∧
    afterRead p t resp wOk err (a ++ (start_marker ++ (m ++ (end_marker ++ b)))) =
      Ev.prompt promptMsg :: installTail p t wOk err (a ++ b) := by
  have hrm : removeBlocks start_marker end_marker
      (a ++ (start_marker ++ (m ++ (end_marker ++ b)))) = a ++ b := by
    rw [removeBlocks_span start_marker_split end_marker_split hA hB,
      removeBlocks_no_marker end_marker b hb]
  refine ⟨hrm, ?_⟩
  have hpres : hasSub start_marker
      (a ++ (start_marker ++ (m ++ (end_marker ++ b)))) = true :=
    hasSub_append_left a (hasSub_of_isPre (isPre_self_append _ _))
  rw [afterRead_accept hpres hacc, hrm]

theorem remove_block_exact_span_witness :
    removeBlocks start_marker end_marker
        ("before\n".data ++ (start_marker ++ ("\nbody\n".data ++
          (end_marker ++ "\nafter".data)))) = "before\n".data ++ "\nafter".data :=
  (remove_block_exact_span [] [] "Y".data [] true "before\n".data "\nbody\n".data
    "\nafter".data (by decide) (by decide) (by decide) (by decide)).1

/-- For either supported dialect's generated script, the assembled file
contains each marker exactly once when the surrounding content avoids it. -/
theorem counts_one {t script : Str} (ht : t = zshName ∨ t = bashName)
    (hs : get_shell_script t = some script) (content : Str)
    (hcs : hasSub start_marker content = false)
    (hce : hasSub end_marker content = false) :
    countOccs start_marker (buildContent script content) = 1 ∧
    countOccs end_marker (buildContent script content) = 1 := by
  have h1 := countOccs_buildContent start_marker script content (by decide)
    (by decide) hcs
  have h2 := countOccs_buildContent end_marker script content (by decide)
    (by decide) hce
  rcases ht with ht | ht <;> subst ht
  · have hz : (some (base_script ++ zshTail) : Option Str) = some script := by
      rw [← hs]
      decide
    have hz' : script = base_script ++ zshTail := (Option.some.inj hz).symm
    subst hz'
    rw [h1, h2]
    constructor <;> decide
  · have hz : (some (base_script ++ bashTail) : Option Str) = some script := by
      rw [← hs]
      decide
    have hz' : script = base_script ++ bashTail := (Option.some.inj hz).symm
    subst hz'
    rw [h1, h2]
    constructor <;> decide

/-- If after reading, the flow reduces to some events followed by the
success write of `content'`, the startup file ends up holding exactly the
assembled content. -/
theorem mainTrace_write_result {e : Env} {fs : FS} {resp err p t content' : Str}
    (pre : List Ev)
    (h : get_shell_config e fs = some (p, t))
    (haf : afterRead p t resp true err ((fs p).getD []) =
      pre ++ installTail p t true err content') :
    applyTrace fs (mainTrace e fs resp true err) p =
      some (buildContent ((get_shell_script t).getD noneText) content') := by
  rw [mainTrace_some resp true err h, haf, installTail_true]
  rw [show Ev.print startingMsg ::
      ((if (fs (e.home ++ historyFile)).isSome then
          [Ev.removeFile (e.home ++ historyFile)]
        else []) ++
        Ev.createFile (e.home ++ historyFile) [] :: Ev.readFile p ::
          (pre ++
            [Ev.writeFile p
                (buildContent ((get_shell_script t).getD noneText) content'),
             Ev.print (successPre ++ p), Ev.print restartMsg])) =
    (Ev.print startingMsg ::
      ((if (fs (e.home ++ historyFile)).isSome then
          [Ev.removeFile (e.home ++ historyFile)]
        else []) ++
        Ev.createFile (e.home ++ historyFile) [] :: Ev.readFile p :: pre)) ++
      Ev.writeFile p (buildContent ((get_shell_script t).getD noneText) content') ::
        [Ev.print (successPre ++ p), Ev.print restartMsg] from by simp]
  apply applyTrace_write_last
  intro ev hev
  fin_cases hev <;> rfl

/-- C1: after a successful install — whether no block existed, or a single
well-formed block existed and reinstall was accepted — the startup file holds
the assembled content: its one block (the marker lines around the script)
appended after the prior non-block content with only its trailing whitespace
normalized, each marker occurring exactly once in the whole file. -/
theorem install_single_block (e : Env) (fs : FS) (resp err p t : Str)
    (h : get_shell_config e fs = some (p, t)) :
    (hasSub start_marker ((fs p).getD []) = false →
      hasSub end_marker ((fs p).getD []) = false →
      ∃ script, get_shell_script t = some script ∧
        applyTrace fs (mainTrace e fs resp true err) p =
          some (buildContent script ((fs p).getD [])) ∧
        countOccs start_marker (buildContent script ((fs p).getD [])) = 1 ∧
        countOccs end_marker (buildContent script ((fs p).getD [])) = 1 ∧
        ∃ w, (fs p).getD [] = rstrip ((fs p).getD []) ++ w ∧
          ∀ c ∈ w, isSpaceChar c = true) ∧
    (∀ a m b : Str,
      (fs p).getD [] = a ++ (start_marker ++ (m ++ (end_marker ++ b))) →
      toLowerStr resp = yText →
      hasSub start_marker (a ++ startHead) = false →
      hasSub end_marker (m ++ endHead) = false →
      hasSub start_marker (a ++ b) = false →
      hasSub end_marker (a ++ b) = false →
      ∃ script, get_shell_script t = some script ∧
        applyTrace fs (mainTrace e fs resp true err) p =
          some (buildContent script (a ++ b)) ∧
        countOccs start_marker (buildContent script (a ++ b)) = 1 ∧
        countOccs end_marker (buildContent script (a ++ b)) = 1 ∧
        ∃ w, a ++ b = rstrip (a ++ b) ++ w ∧ ∀ c ∈ w, isSpaceChar c = true) := by
  have ht := shell_type_cases h
  obtain ⟨script, hs⟩ : ∃ s, get_shell_script t = some s := by
    rcases ht with ht | ht <;> subst ht
    · exact ⟨base_script ++ zshTail, by decide⟩
    · exact ⟨base_script ++ bashTail, by decide⟩
  have hget : (get_shell_script t).getD noneText = script := by
    rw [hs]
    rfl
  constructor
  · intro hm he
    refine ⟨script, hs, ?_, (counts_one ht hs _ hm he).1,
      (counts_one ht hs _ hm he).2, rstrip_spec _⟩
    have haf : afterRead p t resp true err ((fs p).getD []) =
        [] ++ installTail p t true err ((fs p).getD []) := by
      rw [afterRead_fresh hm]
      rfl
    have hres := mainTrace_write_result [] h haf
    rwa [hget] at hres
  · intro a m b hcontent hacc hA hB hS hE
    have hb : hasSub start_marker b = false := hasSub_append_elim_right hS
    have hrm : removeBlocks start_marker end_marker ((fs p).getD []) = a ++ b := by
      rw [hcontent, removeBlocks_span start_marker_split end_marker_split hA hB,
        removeBlocks_no_marker end_marker b hb]
    have hpres : hasSub start_marker ((fs p).getD []) = true := by
      rw [hcontent]
      exact hasSub_append_left a (hasSub_of_isPre (isPre_self_append _ _))
    refine ⟨script, hs, ?_, (counts_one ht hs _ hS hE).1,
      (counts_one ht hs _ hS hE).2, rstrip_spec _⟩
    have haf : afterRead p t resp true err ((fs p).getD []) =
        [Ev.prompt promptMsg] ++ installTail p t true err (a ++ b) := by
      rw [afterRead_accept hpres hacc, hrm]
      rfl
    have hres := mainTrace_write_result [Ev.prompt promptMsg] h haf
    rwa [hget] at hres

theorem install_single_block_witness :
    ∃ script, get_shell_script zshName = some script ∧
      applyTrace
          (fun q => if q = "/h".data ++ zshrcFile then
              some ("hello\n".data ++ (start_marker ++ ("\nOLD\n".data ++
                (end_marker ++ "\ntail".data)))) else none)
          (mainTrace ⟨some "/bin/zsh".data, "/h".data⟩
            (fun q => if q = "/h".data ++ zshrcFile then
                some ("hello\n".data ++ (start_marker ++ ("\nOLD\n".data ++
                  (end_marker ++ "\ntail".data)))) else none)
            "y".data true [])
          ("/h".data ++ zshrcFile) =
        some (buildContent script ("hello\n".data ++ "\ntail".data)) ∧
      countOccs start_marker (buildContent script ("hello\n".data ++ "\ntail".data)) = 1 ∧
      countOccs end_marker (buildContent script ("hello\n".data ++ "\ntail".data)) = 1 ∧
      ∃ w, "hello\n".data ++ "\ntail".data =
          rstrip ("hello\n".data ++ "\ntail".data) ++ w ∧
        ∀ c ∈ w, isSpaceChar c = true :=
  (install_single_block ⟨some "/bin/zsh".data, "/h".data⟩
    (fun q => if q = "/h".data ++ zshrcFile then
        some ("hello\n".data ++ (start_marker ++ ("\nOLD\n".data ++
          (end_marker ++ "\ntail".data)))) else none)
    "y".data [] ("/h".data ++ zshrcFile) zshName (by decide)).2
    "hello\n".data "\nOLD\n".data "\ntail".data
    (by decide) (by decide) (by decide) (by decide) (by decide) (by decide)

/-- C10: when the prior content holds two complete delimited blocks and
reinstall is accepted, removal deletes both blocks, so after the new block
is appended the file again holds each marker exactly once. -/
theorem remove_all_blocks_install (e : Env) (fs : FS) (resp err p t : Str)
    (a m b m2 c : Str)
    (h : get_shell_config e fs = some (p, t))
    (hcontent : (fs p).getD [] =
      a ++ (start_marker ++ (m ++ (end_marker ++
        (b ++ (start_marker ++ (m2 ++ (end_marker ++ c))))))))
    (hacc : toLowerStr resp = yText)
    (hA : hasSub start_marker (a ++ startHead) = false)
    (hB : hasSub end_marker (m ++ endHead) = false)
    (hA2 : hasSub start_marker (b ++ startHead) = false)
    (hB2 : hasSub end_marker (m2 ++ endHead) = false)
    (hS : hasSub start_marker (a ++ (b ++ c)) = false)
    (hE : hasSub end_marker (a ++ (b ++ c)) = false) :
    removeBlocks start_marker end_marker ((fs p).getD []) = a ++ (b ++ c) ∧
    ∃ script, get_shell_script t = some script ∧
      applyTrace fs (mainTrace e fs resp true err) p =
        some (buildContent script (a ++ (b ++ c))) ∧
      countOccs start_marker (buildContent script (a ++ (b ++ c))) = 1 ∧
      countOccs end_marker (buildContent script (a ++ (b ++ c))) = 1 := by
  have ht := shell_type_cases h
  obtain ⟨script, hs⟩ : ∃ s, get_shell_script t = some s := by
    rcases ht with ht | ht <;> subst ht
    · exact ⟨base_script ++ zshTail, by decide⟩
    · exact ⟨base_script ++ bashTail, by decide⟩
  have hget : (get_shell_script t).getD noneText = script := by
    rw [hs]
    rfl
  have hc2 : hasSub start_marker c = false :=
    hasSub_append_elim_right (hasSub_append_elim_right hS)
  have hrm : removeBlocks start_marker end_marker ((fs p).getD []) =
      a ++ (b ++ c) := by
    rw [hcontent, removeBlocks_span start_marker_split end_marker_split hA hB,
      removeBlocks_span start_marker_split end_marker_split hA2 hB2,
      removeBlocks_no_marker end_marker c hc2]
  have hpres : hasSub start_marker ((fs p).getD []) = true := by
    rw [hcontent]
    exact hasSub_append_left a (hasSub_of_isPre (isPre_self_append _ _))
  refine ⟨hrm, script, hs, ?_, (counts_one ht hs _ hS hE).1,
    (counts_one ht hs _ hS hE).2⟩
  have haf : afterRead p t resp true err ((fs p).getD []) =
      [Ev.prompt promptMsg] ++ installTail p t true err (a ++ (b ++ c)) := by
    rw [afterRead_accept hpres hacc, hrm]
    rfl
  have hres := mainTrace_write_result [Ev.prompt promptMsg] h haf
  rwa [hget] at hres

theorem remove_all_blocks_install_witness :
    removeBlocks start_marker end_marker
        ((( fun q => if q = "/h".data ++ zshrcFile then
            some ("A\n".data ++ (start_marker ++ ("one".data ++ (end_marker ++
              ("B\n".data ++ (start_marker ++ ("two".data ++ (end_marker ++
                "C".data)))))))) else none) ("/h".data ++ zshrcFile)).getD []) =
      "A\n".data ++ ("B\n".data ++ "C".data) :=
  (remove_all_blocks_install ⟨some "/bin/zsh".data, "/h".data⟩
    (fun q => if q = "/h".data ++ zshrcFile then
        some ("A\n".data ++ (start_marker ++ ("one".data ++ (end_marker ++
          ("B\n".data ++ (start_marker ++ ("two".data ++ (end_marker ++
            "C".data)))))))) else none)
    "Y".data [] ("/h".data ++ zshrcFile) zshName
    "A\n".data "one".data "B\n".data "two".data "C".data
    (by decide) (by decide) (by decide) (by decide) (by decide) (by decide)
    (by decide) (by decide) (by decide)).1
